import Mathlib

set_option maxRecDepth 40000

/-!
Shallow embedding of `src/CandleFlickerLED.c` (a candle-flicker LED driver
written as AVR assembly inlined in C) and verification of its specification.

The timer-overflow ISR `TIM0_OVF_vect` keeps all of its state in registers:
`r20..r23` hold a 32-bit pseudo-random register (`r20` = least significant
byte), `r24` holds the 5-bit frame counter, and the PWM compare register
`OCR0A` holds the committed duty cycle.  Each field is modelled as a `Nat`
that is kept below `256` (respectively `32`) by the invariants stated in the
theorems.
-/

/-- The feedback constant `#define LFSR_FEEDBACK_TERM 0x7FFFF159` (line 20 of
the source).  Its four bytes `0x59, 0xF1, 0xFF, 0x7F` are the immediates of
the `eor`/`com` instructions in the `.LNEW_RAND` block. -/
def LFSR_FEEDBACK_TERM : Nat := 0x7FFFF159

/-- Register state of the flicker engine: `r20..r23` are the four bytes of the
32-bit generator (low byte first), `r24` is the frame counter, and `ocr0a` is
the hardware PWM compare register holding the committed duty cycle. -/
structure MCU where
  r20 : Nat
  r21 : Nat
  r22 : Nat
  r23 : Nat
  r24 : Nat
  ocr0a : Nat

/-- The frame counter value after `inc r24; andi r24,0x1F` (8-bit increment
followed by masking to 5 bits). -/
def nextCtr (m : MCU) : Nat := ((m.r24 + 1) % 256) &&& 0x1F

/-- The regeneration decision of the ISR: the `tst r24 / breq .LNEW_RAND`,
`andi r31,lo8(7) / brne .LNEW_PWM` and `andi r31,lo8(12) / brne .LNEW_PWM`
tests.  Regeneration happens when the incremented counter is `0`, or when it
is a multiple of `8` and bits 2..3 of the generator low byte are clear. -/
def regenCond (m : MCU) : Bool :=
  nextCtr m == 0 || (nextCtr m &&& 7 == 0 && m.r20 &&& 0xC == 0)

/-- One LFSR advance at byte level, exactly following the `.LNEW_RAND` block:
save bit 0 of `r20` (the `mov r31,r20` before the shift), do the 32-bit right
shift `lsr r23; ror r22; ror r21; ror r20` (each `ror` shifts the previous
carry into bit 7), and — only when the saved bit is 0, because `sbrc r31,0`
skips the `rjmp` when the bit is clear — XOR the bytes of
`LFSR_FEEDBACK_TERM` into the register (`com r22` is `r22 ^^^ 0xFF`). -/
def lfsrStepBytes (b0 b1 b2 b3 : Nat) : Nat × Nat × Nat × Nat :=
  let s3 := b3 / 2
  let s2 := b2 / 2 + 128 * (b3 % 2)
  let s1 := b1 / 2 + 128 * (b2 % 2)
  let s0 := b0 / 2 + 128 * (b1 % 2)
  if b0 % 2 == 1 then (s0, s1, s2, s3)
  else (s0 ^^^ 0x59, s1 ^^^ 0xF1, s2 ^^^ 0xFF, s3 ^^^ 0x7F)

/-- The generator bytes after the (possibly skipped) regeneration. -/
def regenRegs (m : MCU) : Nat × Nat × Nat × Nat :=
  if regenCond m then lfsrStepBytes m.r20 m.r21 m.r22 m.r23
  else (m.r20, m.r21, m.r22, m.r23)

/-- The commit test `cpi r24,0x1F / brne .LRETI`: the duty cycle is written
only when the incremented frame counter equals `0x1F`. -/
def commitCond (m : MCU) : Bool := nextCtr m == 0x1F

/-- The duty-cycle byte derived from the generator low byte in the `.LNEW_PWM`
block: `0xFF` when bit 4 is set (`sbrc r20,4`), otherwise
`swap r31; ori r31,0x0F` — the nibble-swapped low byte with the low nibble
forced to all ones. -/
def pwmValue (b0 : Nat) : Nat :=
  if b0.testBit 4 then 0xFF
  else ((b0 % 16) * 16 + b0 / 16) ||| 0x0F

/-- One invocation of the ISR `TIM0_OVF_vect`: increment and mask the frame
counter, regenerate the LFSR when `regenCond` holds, and at frame `0x1F`
write the derived duty cycle to `OCR0A`. -/
def tick (m : MCU) : MCU :=
  let regs := regenRegs m
  { r20 := regs.1
    r21 := regs.2.1
    r22 := regs.2.2.1
    r23 := regs.2.2.2
    r24 := nextCtr m
    ocr0a := if commitCond m then pwmValue regs.1 else m.ocr0a }

/-- The 32-bit value held by four little-endian bytes. -/
def regVal (b0 b1 b2 b3 : Nat) : Nat :=
  b0 + 256 * b1 + 65536 * b2 + 16777216 * b3

/-- The 32-bit value of a byte quadruple. -/
def regValT (t : Nat × Nat × Nat × Nat) : Nat :=
  regVal t.1 t.2.1 t.2.2.1 t.2.2.2

/-- The 32-bit generator value held in `r20..r23`. -/
def genVal (m : MCU) : Nat := regVal m.r20 m.r21 m.r22 m.r23

/-- The LFSR regeneration step on the abstract 32-bit value: shift right by
one; if the bit shifted out was 0, XOR with the feedback constant.  (This is
what the `.LNEW_RAND` block computes, see `lfsrStepBytes_regVal`.) -/
def lfsrStep (s : Nat) : Nat :=
  if s % 2 = 1 then s / 2 else (s / 2) ^^^ LFSR_FEEDBACK_TERM

/-- Modelled from the spec: the regeneration step as the specification words
it — "If `outBit` was 1, exclusive-or the shifted register with the fixed
feedback constant.  If `outBit` was 0, leave the shifted register
unmodified."  Used only to compare the spec's description against the code. -/
def specWordedStep (s : Nat) : Nat :=
  if s % 2 = 1 then (s / 2) ^^^ LFSR_FEEDBACK_TERM else s / 2

/-- The unique fixed point of `lfsrStep` (see `lfsrStep_fixed_unique`). -/
def FIXED_STATE : Nat := 0x55555E6E

/-- Number of ticks among the first `n` ticks from state `m` on which the
regeneration step fires. -/
def regenCount (m : MCU) (n : Nat) : Nat :=
  ((Finset.range n).filter (fun k => regenCond (tick^[k] m) = true)).card

/-- Number of ticks among the first `n` ticks from state `m` on which the
duty cycle is committed. -/
def commitCount (m : MCU) (n : Nat) : Nat :=
  ((Finset.range n).filter (fun k => commitCond (tick^[k] m) = true)).card

/-- Partial XOR `C ^^^ (C >>> 1) ^^^ … ^^^ (C >>> (j-1))` of the shifted
feedback constants, used to invert the gray-code style equation satisfied by
a fixed point of the step. -/
def xorPrefix : Nat → Nat
  | 0 => 0
  | j + 1 => xorPrefix j ^^^ LFSR_FEEDBACK_TERM >>> j

/-! ### An affine-map representation of the step, for computing far iterates

`lfsrStep` is affine over GF(2): `lfsrStep s = L s ^^^ C` with `L` linear.
An affine map on 32-bit values is represented by its 32 columns (images of
the unit bits) plus an offset; composition then allows computing
`lfsrStep^[n]` by binary exponentiation, which the kernel can evaluate. -/

/-- Apply a column list to a bit vector: XOR of the columns at the set bits. -/
def applyLin : List Nat → Nat → Nat
  | [], _ => 0
  | c :: cs, v => (if v % 2 = 1 then c else 0) ^^^ applyLin cs (v / 2)

/-- An affine map over GF(2)^32: column images of the unit bits, plus a
constant offset. -/
structure AffMap where
  cols : List Nat
  off : Nat

/-- Evaluate an affine map. -/
def AffMap.apply (a : AffMap) (s : Nat) : Nat := applyLin a.cols s ^^^ a.off

/-- Composition `a ∘ b` of affine maps. -/
def AffMap.comp (a b : AffMap) : AffMap :=
  ⟨b.cols.map (applyLin a.cols), applyLin a.cols b.off ^^^ a.off⟩

/-- The identity on 32-bit values. -/
def idAff : AffMap := ⟨(List.range 32).map (2 ^ ·), 0⟩

/-- The step `lfsrStep` as an affine map: column 0 is the feedback constant (an odd
value is shifted with no XOR, and the offset cancels), the other columns are
the right shift, and the offset is the feedback constant. -/
def lfsrAff : AffMap :=
  ⟨LFSR_FEEDBACK_TERM :: (List.range 31).map (2 ^ ·), LFSR_FEEDBACK_TERM⟩

/-- Power `lfsrAff ^ n` by binary exponentiation (fuel-structured so that the
kernel can unfold it). -/
def affPow : Nat → Nat → AffMap
  | 0, _ => idAff
  | fuel + 1, n =>
    if n = 0 then idAff
    else
      let h := affPow fuel (n / 2)
      let sq := h.comp h
      if n % 2 = 1 then sq.comp lfsrAff else sq

/-- The orbit of 0 returns to 0 after `n` steps. -/
def returnsZero (n : Nat) : Prop := lfsrStep^[n] 0 = 0

/-! ### Small bounded facts about the 8-bit masking operations -/

theorem land31_mod : ∀ x < 256, x &&& 31 = x % 32 := by decide

theorem land7_mod : ∀ x < 32, x &&& 7 = x % 8 := by decide

theorem land12_testBits : ∀ x < 256,
    (x &&& 12 = 0 ↔ (x.testBit 2 = false ∧ x.testBit 3 = false)) := by decide

theorem swap_or_nibbles : ∀ x < 256,
    ((x % 16) * 16 + x / 16) ||| 15 = (x % 16) * 16 + 15 := by decide

theorem nextCtr_eq (m : MCU) (h : m.r24 < 32) : nextCtr m = (m.r24 + 1) % 32 := by
  unfold nextCtr
  rw [Nat.mod_eq_of_lt (by omega)]
  exact land31_mod (m.r24 + 1) (by omega)

/-! ### Behaviour of a tick at commit and non-commit frames -/

theorem regenCond_at_commit (m : MCU) (h24 : m.r24 < 32)
    (hc : (m.r24 + 1) % 32 = 31) : regenCond m = false := by
  have hn : nextCtr m = 31 := by rw [nextCtr_eq m h24, hc]
  simp [regenCond, hn]

theorem tick_ocr_commit (m : MCU) (h24 : m.r24 < 32)
    (hc : (m.r24 + 1) % 32 = 31) : (tick m).ocr0a = pwmValue m.r20 := by
  have hn : nextCtr m = 31 := by rw [nextCtr_eq m h24, hc]
  have hr : regenRegs m = (m.r20, m.r21, m.r22, m.r23) := by
    simp [regenRegs, regenCond_at_commit m h24 hc]
  have hcc : commitCond m = true := by simp [commitCond, hn]
  simp [tick, hr, hcc]

theorem tick_ocr_skip (m : MCU) (h24 : m.r24 < 32)
    (hnc : (m.r24 + 1) % 32 ≠ 31) : (tick m).ocr0a = m.ocr0a := by
  have hn : commitCond m = false := by
    unfold commitCond
    rw [nextCtr_eq m h24]
    exact beq_eq_false_iff_ne.mpr hnc
  simp [tick, hn]

/-- C3: at the commit frame (counter = 31), a generator low byte with bit 4
set commits exactly 0xFF; with bit 4 clear, the committed byte's high nibble
is the generator low byte's low nibble and its low nibble is 0xF. -/
theorem C3_commit_mapping (m : MCU) (h20 : m.r20 < 256) (h24 : m.r24 < 32)
    (hc : (m.r24 + 1) % 32 = 31) :
    (m.r20.testBit 4 = true → (tick m).ocr0a = 0xFF) ∧
    (m.r20.testBit 4 = false →
      (tick m).ocr0a / 16 = m.r20 % 16 ∧ (tick m).ocr0a % 16 = 0xF) := by
  rw [tick_ocr_commit m h24 hc]
  unfold pwmValue
  constructor
  · intro hb
    simp [hb]
  · intro hb
    simp only [hb, Bool.false_eq_true, if_false]
    rw [swap_or_nibbles m.r20 h20]
    omega

/-- C3 witness: the spec's own scenario — generator low byte `0b00000101` at
frame 31 commits `0x5F`. -/
theorem C3_commit_mapping_witness :
    (5 : Nat) < 256 ∧ (30 : Nat) < 32 ∧ (30 + 1) % 32 = 31 ∧
    (tick ⟨5, 0, 0, 0, 30, 0⟩).ocr0a = 0x5F ∧
    ((tick ⟨5, 0, 0, 0, 30, 0⟩).ocr0a / 16 = 5 % 16 ∧
      (tick ⟨5, 0, 0, 0, 30, 0⟩).ocr0a % 16 = 0xF) :=
  ⟨by decide, by decide, by decide, by decide,
    (C3_commit_mapping ⟨5, 0, 0, 0, 30, 0⟩ (by decide) (by decide)
      (by decide)).2 (by decide)⟩

/-- C4 counterexample: generator low byte `0x0F` has bit 4 clear, yet the
committed duty cycle is `0xFF` — the "never 0xFF in this branch" part of the
claim is false. -/
theorem C4_cex :
    Nat.testBit 15 4 = false ∧ (tick ⟨15, 0, 0, 0, 30, 0⟩).ocr0a = 0xFF := by
  decide

/-- C4 (amended): with bit 4 clear the committed byte is
`(low nibble) * 16 + 0xF`, one of the 16 evenly spaced levels
`0x0F, 0x1F, …, 0xFF`; it equals `0xFF` exactly when the low nibble is
`0xF`. -/
theorem C4_nonmax_levels (m : MCU) (h20 : m.r20 < 256) (h24 : m.r24 < 32)
    (hc : (m.r24 + 1) % 32 = 31) (hb : m.r20.testBit 4 = false) :
    (tick m).ocr0a = (m.r20 % 16) * 16 + 15 ∧
    ((tick m).ocr0a = 0xFF ↔ m.r20 % 16 = 15) := by
  rw [tick_ocr_commit m h24 hc]
  unfold pwmValue
  simp only [hb, Bool.false_eq_true, if_false]
  rw [swap_or_nibbles m.r20 h20]
  omega

/-- C4 witness: generator low byte 5 (bit 4 clear) commits `0x5F ≠ 0xFF`. -/
theorem C4_nonmax_levels_witness :
    (5 : Nat) < 256 ∧ (30 : Nat) < 32 ∧ (30 + 1) % 32 = 31 ∧
    Nat.testBit 5 4 = false ∧
    ((tick ⟨5, 0, 0, 0, 30, 0⟩).ocr0a = 5 % 16 * 16 + 15 ∧
      ((tick ⟨5, 0, 0, 0, 30, 0⟩).ocr0a = 0xFF ↔ (5 : Nat) % 16 = 15)) :=
  ⟨by decide, by decide, by decide, by decide,
    C4_nonmax_levels ⟨5, 0, 0, 0, 30, 0⟩ (by decide) (by decide) (by decide)
      (by decide)⟩

/-- C5: after the counter increment, the regeneration step fires iff the
counter is 0, or the counter is 8, 16 or 24 and bits 2 and 3 of the
generator's low byte are both zero. -/
theorem C5_regen_gating (m : MCU) (h20 : m.r20 < 256) (h24 : m.r24 < 32) :
    regenCond m = true ↔
      ((m.r24 + 1) % 32 = 0 ∨
        (((m.r24 + 1) % 32 = 8 ∨ (m.r24 + 1) % 32 = 16 ∨
            (m.r24 + 1) % 32 = 24) ∧
          m.r20.testBit 2 = false ∧ m.r20.testBit 3 = false)) := by
  unfold regenCond
  rw [nextCtr_eq m h24,
    land7_mod ((m.r24 + 1) % 32) (Nat.mod_lt _ (by norm_num))]
  simp only [Bool.or_eq_true, Bool.and_eq_true, beq_iff_eq]
  have h12 := land12_testBits m.r20 h20
  constructor
  · rintro (h0 | ⟨h8, hbits⟩)
    · left; exact h0
    · by_cases hz : (m.r24 + 1) % 32 = 0
      · left; exact hz
      · right
        refine ⟨?_, h12.mp hbits⟩
        omega
  · rintro (h0 | ⟨h8, hb2, hb3⟩)
    · left; exact h0
    · right
      exact ⟨by omega, h12.mpr ⟨hb2, hb3⟩⟩

/-- C5 witness: the spec's scenario — low byte `0b00010011` (bits 2,3 clear)
at checkpoint frame 8 triggers regeneration. -/
theorem C5_regen_gating_witness :
    (0x13 : Nat) < 256 ∧ (7 : Nat) < 32 ∧
    regenCond ⟨0x13, 0, 0, 0, 7, 0⟩ = true ∧
    (regenCond ⟨0x13, 0, 0, 0, 7, 0⟩ = true ↔
      ((7 + 1) % 32 = 0 ∨
        (((7 + 1) % 32 = 8 ∨ (7 + 1) % 32 = 16 ∨ (7 + 1) % 32 = 24) ∧
          Nat.testBit 0x13 2 = false ∧ Nat.testBit 0x13 3 = false))) :=
  ⟨by decide, by decide, by decide,
    C5_regen_gating ⟨0x13, 0, 0, 0, 7, 0⟩ (by decide) (by decide)⟩

/-- C8: on every tick whose post-increment frame counter is not 31, the
duty-cycle register is left unchanged. -/
theorem C8_no_write (m : MCU) (h24 : m.r24 < 32)
    (hnc : (m.r24 + 1) % 32 ≠ 31) : (tick m).ocr0a = m.ocr0a :=
  tick_ocr_skip m h24 hnc

/-- C8 witness: a tick at frame 0 (counter becomes 1) leaves `OCR0A = 7`. -/
theorem C8_no_write_witness :
    (0 : Nat) < 32 ∧ (0 + 1) % 32 ≠ 31 ∧
    (tick ⟨0, 0, 0, 0, 0, 7⟩).ocr0a = (MCU.mk 0 0 0 0 0 7).ocr0a :=
  ⟨by decide, by decide,
    C8_no_write ⟨0, 0, 0, 0, 0, 7⟩ (by decide) (by decide)⟩

/-- C10: every committed duty-cycle byte has low nibble `0xF` (hence is at
least `0x0F` and never `0x00`), and non-commit ticks do not change the
register. -/
theorem C10_committed_low_nibble (m : MCU) (h20 : m.r20 < 256)
    (h24 : m.r24 < 32) :
    ((m.r24 + 1) % 32 = 31 →
      (tick m).ocr0a % 16 = 0xF ∧ 0xF ≤ (tick m).ocr0a ∧
        (tick m).ocr0a ≠ 0) ∧
    ((m.r24 + 1) % 32 ≠ 31 → (tick m).ocr0a = m.ocr0a) := by
  constructor
  · intro hc
    rw [tick_ocr_commit m h24 hc]
    unfold pwmValue
    by_cases hb : m.r20.testBit 4
    · simp [hb]
    · simp only [hb, Bool.false_eq_true, if_false]
      rw [swap_or_nibbles m.r20 h20]
      omega
  · exact tick_ocr_skip m h24

/-! ### Arithmetic facts about XOR needed to relate the byte-level shift and
XOR instructions to the abstract 32-bit step -/

theorem xor_mod_two (x y : Nat) : (x ^^^ y) % 2 = x % 2 ^^^ y % 2 := by
  rw [← Nat.and_one_is_mod, ← Nat.and_one_is_mod, ← Nat.and_one_is_mod,
    Nat.and_xor_distrib_right]

theorem xor_div_two (x y : Nat) : (x ^^^ y) / 2 = x / 2 ^^^ y / 2 := by
  apply Nat.eq_of_testBit_eq
  intro i
  simp [Nat.testBit_div_two]

theorem xor_decomp (x y : Nat) :
    x ^^^ y = (x % 2 ^^^ y % 2) + 2 * (x / 2 ^^^ y / 2) := by
  rw [← xor_mod_two, ← xor_div_two]
  omega

theorem two_mul_xor (x y : Nat) : 2 * (x ^^^ y) = 2 * x ^^^ 2 * y := by
  rw [xor_decomp (2 * x) (2 * y), Nat.mul_mod_right, Nat.mul_mod_right,
    Nat.mul_div_cancel_left x (by norm_num),
    Nat.mul_div_cancel_left y (by norm_num)]
  simp

/-- XOR does not mix bit groups: if the low parts are below `2 ^ k`, the XOR
of `low + 2 ^ k * high` decomposes componentwise. -/
theorem xor_split (k : Nat) :
    ∀ a b c d : Nat, a < 2 ^ k → c < 2 ^ k →
      (a + 2 ^ k * b) ^^^ (c + 2 ^ k * d) = (a ^^^ c) + 2 ^ k * (b ^^^ d) := by
  induction k with
  | zero =>
    intro a b c d ha hc
    have ha0 : a = 0 := by omega
    have hc0 : c = 0 := by omega
    subst ha0
    subst hc0
    simp
  | succ k ih =>
    intro a b c d ha hc
    have hp : (2 : Nat) ^ (k + 1) = 2 * 2 ^ k := by
      rw [Nat.pow_succ]
      omega
    have e1 : 2 ^ (k + 1) * b = 2 * (2 ^ k * b) := by rw [hp]; ring
    have e2 : 2 ^ (k + 1) * d = 2 * (2 ^ k * d) := by rw [hp]; ring
    rw [xor_decomp (a + 2 ^ (k + 1) * b) (c + 2 ^ (k + 1) * d)]
    have hm1 : (a + 2 ^ (k + 1) * b) % 2 = a % 2 := by omega
    have hm2 : (c + 2 ^ (k + 1) * d) % 2 = c % 2 := by omega
    have hd1 : (a + 2 ^ (k + 1) * b) / 2 = a / 2 + 2 ^ k * b := by omega
    have hd2 : (c + 2 ^ (k + 1) * d) / 2 = c / 2 + 2 ^ k * d := by omega
    rw [hm1, hm2, hd1, hd2, ih (a / 2) b (c / 2) d (by omega) (by omega),
      xor_decomp a c, hp]
    ring

/-- The four byte-level `eor`/`com` instructions of the feedback XOR compute
the 32-bit XOR with `LFSR_FEEDBACK_TERM`. -/
theorem regVal_xor_feedback (b0 b1 b2 b3 : Nat)
    (h0 : b0 < 256) (h1 : b1 < 256) (h2 : b2 < 256) (_h3 : b3 < 256) :
    regVal (b0 ^^^ 0x59) (b1 ^^^ 0xF1) (b2 ^^^ 0xFF) (b3 ^^^ 0x7F) =
      regVal b0 b1 b2 b3 ^^^ LFSR_FEEDBACK_TERM := by
  have e256 : (256 : Nat) = 2 ^ 8 := by norm_num
  have hx1 : b1 ^^^ 0xF1 < 256 := by
    rw [e256]; exact Nat.xor_lt_two_pow (by omega) (by norm_num)
  have hx2 : b2 ^^^ 0xFF < 256 := by
    rw [e256]; exact Nat.xor_lt_two_pow (by omega) (by norm_num)
  have hs2 : (b2 + 256 * b3) ^^^ (0xFF + 256 * 0x7F) =
      (b2 ^^^ 0xFF) + 256 * (b3 ^^^ 0x7F) := by
    rw [e256]; exact xor_split 8 _ _ _ _ (by omega) (by norm_num)
  have hs1 : (b1 + 256 * (b2 + 256 * b3)) ^^^ (0xF1 + 256 * (0xFF + 256 * 0x7F)) =
      (b1 ^^^ 0xF1) + 256 * ((b2 + 256 * b3) ^^^ (0xFF + 256 * 0x7F)) := by
    rw [e256]; exact xor_split 8 _ _ _ _ (by omega) (by norm_num)
  have hs0 : (b0 + 256 * (b1 + 256 * (b2 + 256 * b3))) ^^^
      (0x59 + 256 * (0xF1 + 256 * (0xFF + 256 * 0x7F))) =
      (b0 ^^^ 0x59) + 256 * ((b1 + 256 * (b2 + 256 * b3)) ^^^
        (0xF1 + 256 * (0xFF + 256 * 0x7F))) := by
    rw [e256]; exact xor_split 8 _ _ _ _ (by omega) (by norm_num)
  have hflat : regVal b0 b1 b2 b3 =
      b0 + 256 * (b1 + 256 * (b2 + 256 * b3)) := by
    unfold regVal; ring
  have hcflat : LFSR_FEEDBACK_TERM =
      0x59 + 256 * (0xF1 + 256 * (0xFF + 256 * 0x7F)) := by norm_num [LFSR_FEEDBACK_TERM]
  rw [hflat, hcflat, hs0, hs1, hs2]
  unfold regVal
  ring

/-- The `.LNEW_RAND` block implements `lfsrStep` on the 32-bit register
value. -/
theorem lfsrStepBytes_regVal (b0 b1 b2 b3 : Nat)
    (h0 : b0 < 256) (h1 : b1 < 256) (h2 : b2 < 256) (h3 : b3 < 256) :
    regValT (lfsrStepBytes b0 b1 b2 b3) = lfsrStep (regVal b0 b1 b2 b3) := by
  have hpar : regVal b0 b1 b2 b3 % 2 = b0 % 2 := by unfold regVal; omega
  rcases Nat.mod_two_eq_zero_or_one b0 with hb | hb
  · have h1 : lfsrStepBytes b0 b1 b2 b3 =
        ((b0 / 2 + 128 * (b1 % 2)) ^^^ 0x59, (b1 / 2 + 128 * (b2 % 2)) ^^^ 0xF1,
          (b2 / 2 + 128 * (b3 % 2)) ^^^ 0xFF, b3 / 2 ^^^ 0x7F) := by
      unfold lfsrStepBytes
      rw [hb]
      simp
    have h2 : lfsrStep (regVal b0 b1 b2 b3) =
        regVal b0 b1 b2 b3 / 2 ^^^ LFSR_FEEDBACK_TERM := by
      unfold lfsrStep
      rw [hpar, hb]
      simp
    rw [h1, h2]
    show regVal _ _ _ _ = _
    rw [regVal_xor_feedback _ _ _ _ (by omega) (by omega) (by omega) (by omega)]
    congr 1
    unfold regVal
    omega
  · have h1 : lfsrStepBytes b0 b1 b2 b3 =
        (b0 / 2 + 128 * (b1 % 2), b1 / 2 + 128 * (b2 % 2),
          b2 / 2 + 128 * (b3 % 2), b3 / 2) := by
      unfold lfsrStepBytes
      rw [hb]
      simp
    have h2 : lfsrStep (regVal b0 b1 b2 b3) = regVal b0 b1 b2 b3 / 2 := by
      unfold lfsrStep
      rw [hpar, hb]
      simp
    rw [h1, h2]
    simp only [regValT, regVal]
    omega

/-- C2 counterexample: at generator value 0 the bit shifted out is 0, and the
code XORs the feedback constant in (result `0x7FFFF159`), while the step as
worded by the spec would leave the register unchanged (result 0). -/
theorem C2_cex :
    regValT (lfsrStepBytes 0 0 0 0) ≠ specWordedStep (regVal 0 0 0 0) ∧
    regValT (lfsrStepBytes 0 0 0 0) = 0x7FFFF159 ∧
    specWordedStep (regVal 0 0 0 0) = 0 :=
  ⟨by decide, by decide, by decide⟩

/-- C2 (amended): one regeneration step shifts the 32-bit register right by
one bit and, precisely when the bit shifted out was 0, XORs the shifted
register with the feedback constant; when the bit shifted out was 1 the
shifted register is left unmodified. -/
theorem C2_step_shape (b0 b1 b2 b3 : Nat)
    (h0 : b0 < 256) (h1 : b1 < 256) (h2 : b2 < 256) (h3 : b3 < 256) :
    regValT (lfsrStepBytes b0 b1 b2 b3) =
      if regVal b0 b1 b2 b3 % 2 = 1 then regVal b0 b1 b2 b3 / 2
      else regVal b0 b1 b2 b3 / 2 ^^^ LFSR_FEEDBACK_TERM :=
  lfsrStepBytes_regVal b0 b1 b2 b3 h0 h1 h2 h3

/-- C2 witness: a concrete instance of the amended step shape, at the
register value 2 (bit shifted out is 0, so the feedback constant is XORed
into the shifted value 1). -/
theorem C2_step_shape_witness :
    (2 : Nat) < 256 ∧
    regValT (lfsrStepBytes 2 0 0 0) =
      (if regVal 2 0 0 0 % 2 = 1 then regVal 2 0 0 0 / 2
        else regVal 2 0 0 0 / 2 ^^^ LFSR_FEEDBACK_TERM) ∧
    regValT (lfsrStepBytes 2 0 0 0) = 0x7FFFF158 :=
  ⟨by decide,
    C2_step_shape 2 0 0 0 (by decide) (by decide) (by decide) (by decide),
    by decide⟩

/-! ### The step never produces a value with bit 31 set -/

theorem lfsrStep_lt (s : Nat) (h : s < 2 ^ 32) : lfsrStep s < 2 ^ 31 := by
  unfold lfsrStep
  rcases Nat.mod_two_eq_zero_or_one s with hpar | hpar
  · rw [if_neg (by omega)]
    exact Nat.xor_lt_two_pow (by omega) (by norm_num [LFSR_FEEDBACK_TERM])
  · rw [if_pos hpar]
    omega

theorem genVal_tick (m : MCU) : genVal (tick m) = regValT (regenRegs m) := rfl

theorem tick_genVal_cases (m : MCU) (h20 : m.r20 < 256) (h21 : m.r21 < 256)
    (h22 : m.r22 < 256) (h23 : m.r23 < 256) :
    genVal (tick m) = genVal m ∨ genVal (tick m) = lfsrStep (genVal m) := by
  rw [genVal_tick]
  unfold regenRegs
  by_cases hr : regenCond m = true
  · right
    rw [if_pos hr]
    exact lfsrStepBytes_regVal _ _ _ _ h20 h21 h22 h23
  · left
    rw [if_neg hr]
    rfl

/-- C9: one regeneration step always clears bit 31 (the shift inserts 0 and
the feedback constant has bit 31 clear), so every stepped value is below
`2 ^ 31`, and a tick preserves the below-`2 ^ 31` invariant of the
generator. -/
theorem C9_bit31_clear (s : Nat) (m : MCU) (hs : s < 2 ^ 32)
    (h20 : m.r20 < 256) (h21 : m.r21 < 256) (h22 : m.r22 < 256)
    (h23 : m.r23 < 256) (hg : genVal m < 2 ^ 31) :
    ((lfsrStep s).testBit 31 = false ∧ lfsrStep s < 2 ^ 31) ∧
      genVal (tick m) < 2 ^ 31 := by
  refine ⟨⟨Nat.testBit_lt_two_pow (lfsrStep_lt s hs), lfsrStep_lt s hs⟩, ?_⟩
  rcases tick_genVal_cases m h20 h21 h22 h23 with h | h
  · rw [h]
    exact hg
  · rw [h]
    exact lfsrStep_lt _ (by omega)

/-- C9 witness: concrete instance at generator value 0 and the power-on
state. -/
theorem C9_bit31_clear_witness :
    (0 : Nat) < 2 ^ 32 ∧
    (((lfsrStep 0).testBit 31 = false ∧ lfsrStep 0 < 2 ^ 31) ∧
      genVal (tick ⟨0, 0, 0, 0, 0, 0⟩) < 2 ^ 31) :=
  ⟨by norm_num,
    C9_bit31_clear 0 ⟨0, 0, 0, 0, 0, 0⟩ (by norm_num) (by norm_num)
      (by norm_num) (by norm_num) (by norm_num) (by norm_num [genVal, regVal])⟩

/-! ### The unique fixed point of the step, and its unreachability from 0 -/

theorem xor_chain (a b c : Nat) : (a ^^^ b) ^^^ (b ^^^ c) = a ^^^ c := by
  rw [Nat.xor_assoc, ← Nat.xor_assoc b b c, Nat.xor_self, Nat.zero_xor]

theorem shiftRight_xor (x y k : Nat) :
    (x ^^^ y) >>> k = x >>> k ^^^ y >>> k := by
  apply Nat.eq_of_testBit_eq
  intro i
  simp


theorem gray_tele (t : Nat) (h : t ^^^ t >>> 1 = LFSR_FEEDBACK_TERM) :
    ∀ j, t ^^^ t >>> j = xorPrefix j := by
  intro j
  induction j with
  | zero => simp [xorPrefix]
  | succ j ih =>
    have hs : t >>> j ^^^ t >>> (j + 1) = LFSR_FEEDBACK_TERM >>> j := by
      have h2 := congrArg (fun z => z >>> j) h
      simp only [shiftRight_xor] at h2
      rw [← h2]
      congr 1
      rw [Nat.add_comm, Nat.shiftRight_add]
    calc t ^^^ t >>> (j + 1)
        = (t ^^^ t >>> j) ^^^ (t >>> j ^^^ t >>> (j + 1)) :=
          (xor_chain t (t >>> j) (t >>> (j + 1))).symm
      _ = xorPrefix j ^^^ LFSR_FEEDBACK_TERM >>> j := by rw [ih, hs]
      _ = xorPrefix (j + 1) := rfl

/-- The step has exactly one fixed point among 32-bit values, `0x55555E6E`. -/
theorem lfsrStep_fixed_unique (t : Nat) (hlt : t < 2 ^ 32)
    (hfix : lfsrStep t = t) : t = FIXED_STATE := by
  unfold lfsrStep at hfix
  rcases Nat.mod_two_eq_zero_or_one t with hpar | hpar
  · rw [if_neg (by omega)] at hfix
    have hx : t ^^^ t >>> 1 = LFSR_FEEDBACK_TERM := by
      rw [Nat.shiftRight_one]
      nth_rewrite 1 [← hfix]
      rw [Nat.xor_comm (t / 2) LFSR_FEEDBACK_TERM, Nat.xor_assoc,
        Nat.xor_self, Nat.xor_zero]
    have h32 : t >>> 32 = 0 := by
      rw [Nat.shiftRight_eq_div_pow]
      exact Nat.div_eq_of_lt hlt
    have ht := gray_tele t hx 32
    rw [h32, Nat.xor_zero] at ht
    rw [ht]
    decide
  · rw [if_pos hpar] at hfix
    omega

/-- The only step-predecessors of the fixed point are itself and the value
`0xAAAABCDD`, which has bit 31 set. -/
theorem lfsrStep_preimage_fixed (y : Nat) (h : lfsrStep y = FIXED_STATE) :
    y = FIXED_STATE ∨ y = 0xAAAABCDD := by
  unfold lfsrStep at h
  rcases Nat.mod_two_eq_zero_or_one y with hpar | hpar
  · rw [if_neg (by omega)] at h
    have h2 : y / 2 = FIXED_STATE ^^^ LFSR_FEEDBACK_TERM := by
      rw [← h, Nat.xor_assoc, Nat.xor_self, Nat.xor_zero]
    have hv : y / 2 = 0x2AAAAF37 := by rw [h2]; decide
    left
    unfold FIXED_STATE
    omega
  · rw [if_pos hpar] at h
    right
    unfold FIXED_STATE at h
    omega

theorem orbit_lt (n : Nat) : lfsrStep^[n] 0 < 2 ^ 31 := by
  induction n with
  | zero =>
    rw [Function.iterate_zero_apply]
    norm_num
  | succ n ih =>
    rw [Function.iterate_succ_apply']
    exact lfsrStep_lt _ (by omega)

theorem orbit_ne_fixed (n : Nat) : lfsrStep^[n] 0 ≠ FIXED_STATE := by
  induction n with
  | zero =>
    rw [Function.iterate_zero_apply]
    decide
  | succ n ih =>
    rw [Function.iterate_succ_apply']
    intro h
    rcases lfsrStep_preimage_fixed _ h with h' | h'
    · exact ih h'
    · have hlt := orbit_lt n
      rw [h'] at hlt
      norm_num at hlt

/-- C7: no state reachable from the all-zero power-on value by regeneration
steps is a fixed point of the step; in particular the first regeneration
moves 0 to the nonzero value `0x7FFFF159`. -/
theorem C7_never_degenerate (n : Nat) :
    lfsrStep (lfsrStep^[n] 0) ≠ lfsrStep^[n] 0 ∧
    lfsrStep 0 = LFSR_FEEDBACK_TERM ∧ lfsrStep 0 ≠ 0 := by
  refine ⟨?_, by decide, by decide⟩
  intro h
  have hb : lfsrStep^[n] 0 < 2 ^ 32 := by have := orbit_lt n; omega
  exact orbit_ne_fixed n (lfsrStep_fixed_unique _ hb h)

/-- C7 witness: instance at the third orbit element. -/
theorem C7_never_degenerate_witness :
    lfsrStep (lfsrStep^[3] 0) ≠ lfsrStep^[3] 0 ∧
    lfsrStep 0 = LFSR_FEEDBACK_TERM ∧ lfsrStep 0 ≠ 0 :=
  C7_never_degenerate 3

/-! ### Counter evolution and per-cycle counting -/

theorem tick_r24 (m : MCU) : (tick m).r24 = nextCtr m := rfl

theorem iter_r24 (m : MCU) (h : m.r24 < 32) :
    ∀ k, (tick^[k] m).r24 = (m.r24 + k) % 32 := by
  intro k
  induction k with
  | zero =>
    rw [Function.iterate_zero_apply]
    omega
  | succ k ih =>
    rw [Function.iterate_succ_apply', tick_r24,
      nextCtr_eq _ (by rw [ih]; omega), ih]
    omega

theorem commitCond_iter (m : MCU) (h : m.r24 < 32) (k : Nat) :
    commitCond (tick^[k] m) = true ↔ (m.r24 + k + 1) % 32 = 31 := by
  unfold commitCond
  rw [nextCtr_eq _ (by rw [iter_r24 m h k]; omega), iter_r24 m h k]
  simp only [beq_iff_eq]
  omega

theorem regenCond_iter_imp (m : MCU) (h : m.r24 < 32) (k : Nat)
    (hr : regenCond (tick^[k] m) = true) : (m.r24 + k + 1) % 8 = 0 := by
  unfold regenCond at hr
  rw [nextCtr_eq _ (by rw [iter_r24 m h k]; omega), iter_r24 m h k] at hr
  simp only [Bool.or_eq_true, Bool.and_eq_true, beq_iff_eq] at hr
  rcases hr with h0 | ⟨h8, _⟩
  · omega
  · rw [land7_mod _ (Nat.mod_lt _ (by norm_num))] at h8
    omega

theorem regenCond_iter_zero (m : MCU) (h : m.r24 < 32) (k : Nat)
    (hz : (m.r24 + k + 1) % 32 = 0) : regenCond (tick^[k] m) = true := by
  unfold regenCond
  rw [nextCtr_eq _ (by rw [iter_r24 m h k]; omega), iter_r24 m h k]
  simp only [Bool.or_eq_true, beq_iff_eq]
  left
  omega

theorem commitCount_32 (m : MCU) (h : m.r24 < 32) : commitCount m 32 = 1 := by
  unfold commitCount
  have he : (Finset.range 32).filter (fun k => commitCond (tick^[k] m) = true)
      = {(62 - m.r24) % 32} := by
    ext k
    simp only [Finset.mem_filter, Finset.mem_range, Finset.mem_singleton]
    rw [commitCond_iter m h k]
    omega
  rw [he]
  rfl

theorem regenCount_le_four (m : MCU) (h : m.r24 < 32) : regenCount m 32 ≤ 4 := by
  unfold regenCount
  have hsub : (Finset.range 32).filter (fun k => regenCond (tick^[k] m) = true)
      ⊆ (Finset.range 32).filter (fun k => (m.r24 + k + 1) % 8 = 0) := by
    intro k hk
    simp only [Finset.mem_filter, Finset.mem_range] at hk ⊢
    exact ⟨hk.1, regenCond_iter_imp m h k hk.2⟩
  have hcard :
      ((Finset.range 32).filter (fun k => (m.r24 + k + 1) % 8 = 0)).card = 4 := by
    have he : (Finset.range 32).filter (fun k => (m.r24 + k + 1) % 8 = 0)
        = {7 - m.r24 % 8, 15 - m.r24 % 8, 23 - m.r24 % 8, 31 - m.r24 % 8} := by
      ext k
      simp only [Finset.mem_filter, Finset.mem_range, Finset.mem_insert,
        Finset.mem_singleton]
      omega
    rw [he,
      Finset.card_insert_of_not_mem (by
        simp only [Finset.mem_insert, Finset.mem_singleton]
        omega),
      Finset.card_insert_of_not_mem (by
        simp only [Finset.mem_insert, Finset.mem_singleton]
        omega),
      Finset.card_insert_of_not_mem (by
        simp only [Finset.mem_singleton]
        omega)]
    rfl
  exact le_trans (Finset.card_le_card hsub) (le_of_eq hcard)

theorem regenCount_pos (m : MCU) (h : m.r24 < 32) : 1 ≤ regenCount m 32 := by
  unfold regenCount
  have hmem : (31 - m.r24) ∈
      (Finset.range 32).filter (fun k => regenCond (tick^[k] m) = true) := by
    simp only [Finset.mem_filter, Finset.mem_range]
    exact ⟨by omega, regenCond_iter_zero m h _ (by omega)⟩
  exact Finset.card_pos.mpr ⟨_, hmem⟩

/-- C6: each tick advances the frame counter by 1 modulo 32; over 32
consecutive ticks the counter returns to its start, exactly one duty-cycle
commit happens (at local frame 31), and between one and four regeneration
steps fire. -/
theorem C6_cycle_counts (m : MCU) (h : m.r24 < 32) :
    (tick m).r24 = (m.r24 + 1) % 32 ∧
    (tick^[32] m).r24 = m.r24 ∧
    commitCount m 32 = 1 ∧
    1 ≤ regenCount m 32 ∧ regenCount m 32 ≤ 4 := by
  refine ⟨?_, ?_, commitCount_32 m h, regenCount_pos m h, regenCount_le_four m h⟩
  · rw [tick_r24, nextCtr_eq m h]
  · rw [iter_r24 m h 32]
    omega

/-- C6 witness: the power-on state. -/
theorem C6_cycle_counts_witness :
    (0 : Nat) < 32 ∧
    ((tick (MCU.mk 0 0 0 0 0 0)).r24 = (0 + 1) % 32 ∧
      (tick^[32] (MCU.mk 0 0 0 0 0 0)).r24 = (MCU.mk 0 0 0 0 0 0).r24 ∧
      commitCount (MCU.mk 0 0 0 0 0 0) 32 = 1 ∧
      1 ≤ regenCount (MCU.mk 0 0 0 0 0 0) 32 ∧
      regenCount (MCU.mk 0 0 0 0 0 0) 32 ≤ 4) :=
  ⟨by decide, C6_cycle_counts (MCU.mk 0 0 0 0 0 0) (by decide)⟩


theorem xor_left_comm (a b c : Nat) : a ^^^ (b ^^^ c) = b ^^^ (a ^^^ c) := by
  rw [← Nat.xor_assoc, Nat.xor_comm a b, Nat.xor_assoc]

theorem xor_xor_self (a b : Nat) : a ^^^ (a ^^^ b) = b := by
  rw [← Nat.xor_assoc, Nat.xor_self, Nat.zero_xor]

theorem one_xor_double (x : Nat) : 1 ^^^ 2 * x = 1 + 2 * x := by
  rw [xor_decomp]
  simp [Nat.mul_mod_right, Nat.mul_div_cancel_left x (by norm_num : 0 < 2)]

theorem applyLin_zero (cols : List Nat) : applyLin cols 0 = 0 := by
  induction cols with
  | nil => rfl
  | cons c cs ih => simp [applyLin, ih]

theorem applyLin_xor (cols : List Nat) :
    ∀ x y, applyLin cols (x ^^^ y) = applyLin cols x ^^^ applyLin cols y := by
  induction cols with
  | nil =>
    intro x y
    simp [applyLin]
  | cons c cs ih =>
    intro x y
    show (if (x ^^^ y) % 2 = 1 then c else 0) ^^^ applyLin cs ((x ^^^ y) / 2) = _
    rw [xor_mod_two, xor_div_two, ih (x / 2) (y / 2)]
    rcases Nat.mod_two_eq_zero_or_one x with hx | hx <;>
      rcases Nat.mod_two_eq_zero_or_one y with hy | hy <;>
      simp [applyLin, hx, hy, Nat.xor_assoc, xor_left_comm, xor_xor_self]

theorem applyLin_map_comp (cols l : List Nat) :
    ∀ v, applyLin (l.map (applyLin cols)) v = applyLin cols (applyLin l v) := by
  induction l with
  | nil =>
    intro v
    simp [applyLin, applyLin_zero]
  | cons c cs ih =>
    intro v
    show (if v % 2 = 1 then applyLin cols c else 0) ^^^
        applyLin (cs.map (applyLin cols)) (v / 2) = _
    rw [ih (v / 2)]
    show _ = applyLin cols ((if v % 2 = 1 then c else 0) ^^^ applyLin cs (v / 2))
    rw [applyLin_xor]
    rcases Nat.mod_two_eq_zero_or_one v with hv | hv <;>
      simp [hv, applyLin_zero]

theorem applyLin_double (l : List Nat) :
    ∀ v, applyLin (l.map (fun c => 2 * c)) v = 2 * applyLin l v := by
  induction l with
  | nil =>
    intro v
    simp [applyLin]
  | cons c cs ih =>
    intro v
    show (if v % 2 = 1 then 2 * c else 0) ^^^
        applyLin (cs.map (fun c => 2 * c)) (v / 2) = _
    rw [ih (v / 2)]
    show _ = 2 * ((if v % 2 = 1 then c else 0) ^^^ applyLin cs (v / 2))
    rw [two_mul_xor]
    rcases Nat.mod_two_eq_zero_or_one v with hv | hv <;> simp [hv]

theorem applyLin_pow_range :
    ∀ n v, applyLin ((List.range n).map (2 ^ ·)) v = v % 2 ^ n := by
  intro n
  induction n with
  | zero =>
    intro v
    simp [applyLin, Nat.mod_one]
  | succ n ih =>
    intro v
    rw [List.range_succ_eq_map]
    simp only [List.map_cons, List.map_map]
    have hmap : (List.range n).map ((fun i => (2 : Nat) ^ i) ∘ Nat.succ)
        = ((List.range n).map (2 ^ ·)).map (fun c => 2 * c) := by
      rw [List.map_map]
      apply List.map_congr_left
      intro i _
      show (2 : Nat) ^ (i + 1) = 2 * 2 ^ i
      rw [Nat.pow_succ]
      ring
    rw [hmap]
    show (if v % 2 = 1 then 2 ^ 0 else 0) ^^^
        applyLin (((List.range n).map (2 ^ ·)).map (fun c => 2 * c)) (v / 2) = _
    rw [applyLin_double, ih (v / 2)]
    have hsplit : v % 2 ^ (n + 1) = v % 2 + 2 * (v / 2 % 2 ^ n) := by
      have h2 : (2 : Nat) ^ (n + 1) = 2 * 2 ^ n := by
        rw [Nat.pow_succ]
        ring
      rw [h2, Nat.mod_mul]
    rw [hsplit]
    rcases Nat.mod_two_eq_zero_or_one v with hv | hv
    · simp [hv]
    · simp only [hv, if_pos, pow_zero]
      rw [one_xor_double]

theorem AffMap_comp_apply (a b : AffMap) (s : Nat) :
    (a.comp b).apply s = a.apply (b.apply s) := by
  show applyLin (b.cols.map (applyLin a.cols)) s ^^^
      (applyLin a.cols b.off ^^^ a.off) =
    applyLin a.cols (applyLin b.cols s ^^^ b.off) ^^^ a.off
  rw [applyLin_map_comp, applyLin_xor, Nat.xor_assoc]

theorem idAff_apply (s : Nat) (hs : s < 2 ^ 32) : idAff.apply s = s := by
  show applyLin ((List.range 32).map (2 ^ ·)) s ^^^ 0 = s
  rw [applyLin_pow_range, Nat.xor_zero]
  exact Nat.mod_eq_of_lt hs

theorem lfsrAff_apply (s : Nat) (hs : s < 2 ^ 32) :
    lfsrAff.apply s = lfsrStep s := by
  show ((if s % 2 = 1 then LFSR_FEEDBACK_TERM else 0) ^^^
      applyLin ((List.range 31).map (2 ^ ·)) (s / 2)) ^^^ LFSR_FEEDBACK_TERM =
    lfsrStep s
  rw [applyLin_pow_range, Nat.mod_eq_of_lt (by omega : s / 2 < 2 ^ 31)]
  unfold lfsrStep
  rcases Nat.mod_two_eq_zero_or_one s with hpar | hpar
  · rw [if_neg (by omega), if_neg (by omega), Nat.zero_xor]
  · rw [if_pos hpar, if_pos hpar, Nat.xor_comm LFSR_FEEDBACK_TERM (s / 2),
      Nat.xor_assoc, Nat.xor_self, Nat.xor_zero]

theorem iterate_lt (s : Nat) (hs : s < 2 ^ 32) :
    ∀ n, lfsrStep^[n] s < 2 ^ 32 := by
  intro n
  induction n with
  | zero =>
    rw [Function.iterate_zero_apply]
    exact hs
  | succ n ih =>
    rw [Function.iterate_succ_apply']
    have := lfsrStep_lt _ ih
    omega

theorem affPow_correct : ∀ fuel n s, n < 2 ^ fuel → s < 2 ^ 32 →
    (affPow fuel n).apply s = lfsrStep^[n] s := by
  intro fuel
  induction fuel with
  | zero =>
    intro n s hn hs
    have hn0 : n = 0 := by omega
    subst hn0
    rw [Function.iterate_zero_apply]
    exact idAff_apply s hs
  | succ fuel ih =>
    intro n s hn hs
    by_cases hn0 : n = 0
    · subst hn0
      rw [Function.iterate_zero_apply]
      show idAff.apply s = s
      exact idAff_apply s hs
    · have hhalf : n / 2 < 2 ^ fuel := by
        have h2 : (2 : Nat) ^ (fuel + 1) = 2 * 2 ^ fuel := by
          rw [Nat.pow_succ]
          ring
        omega
      have hrw : affPow (fuel + 1) n =
          if n % 2 = 1 then
            ((affPow fuel (n / 2)).comp (affPow fuel (n / 2))).comp lfsrAff
          else (affPow fuel (n / 2)).comp (affPow fuel (n / 2)) := by
        simp only [affPow]
        rw [if_neg hn0]
      rcases Nat.mod_two_eq_zero_or_one n with hpar | hpar
      · rw [hrw, if_neg (by omega), AffMap_comp_apply, ih (n / 2) s hhalf hs,
          ih (n / 2) _ hhalf (iterate_lt s hs (n / 2)),
          ← Function.iterate_add_apply]
        congr 1
        omega
      · rw [hrw, if_pos hpar, AffMap_comp_apply, AffMap_comp_apply,
          lfsrAff_apply s hs]
        have hls : lfsrStep s < 2 ^ 32 := by
          have := lfsrStep_lt s hs
          omega
        rw [ih (n / 2) _ hhalf hls,
          ih (n / 2) _ hhalf (iterate_lt _ hls (n / 2)),
          ← Function.iterate_add_apply, ← Function.iterate_succ_apply]
        congr 1
        omega

/-! ### The exact period of the orbit of 0

`436905 = 3^2 * 5 * 7 * 19 * 73`.  The orbit of 0 returns to 0 after 436905
steps, and at `436905 / q` steps (for each prime factor `q`) it is away from
0; since the set of return times is closed under gcd, 436905 is the minimal
period. -/

theorem orbit_436905 : lfsrStep^[436905] 0 = 0 := by
  rw [← affPow_correct 64 436905 0 (by norm_num) (by norm_num)]
  decide

theorem orbit_145635 : lfsrStep^[145635] 0 = 0x0A6B86B8 := by
  rw [← affPow_correct 64 145635 0 (by norm_num) (by norm_num)]
  decide

theorem orbit_87381 : lfsrStep^[87381] 0 = 0x3B287184 := by
  rw [← affPow_correct 64 87381 0 (by norm_num) (by norm_num)]
  decide

theorem orbit_62415 : lfsrStep^[62415] 0 = 0x0385C046 := by
  rw [← affPow_correct 64 62415 0 (by norm_num) (by norm_num)]
  decide

theorem orbit_22995 : lfsrStep^[22995] 0 = 0x79ABED8E := by
  rw [← affPow_correct 64 22995 0 (by norm_num) (by norm_num)]
  decide

theorem orbit_5985 : lfsrStep^[5985] 0 = 0x2706E962 := by
  rw [← affPow_correct 64 5985 0 (by norm_num) (by norm_num)]
  decide

theorem returnsZero_add (a b : Nat) (ha : returnsZero a) (hb : returnsZero b) :
    returnsZero (a + b) := by
  unfold returnsZero at *
  rw [Function.iterate_add_apply, hb, ha]

theorem returnsZero_mul (k a : Nat) (ha : returnsZero a) :
    returnsZero (k * a) := by
  induction k with
  | zero =>
    show lfsrStep^[0 * a] 0 = 0
    rw [Nat.zero_mul]
    rfl
  | succ k ih =>
    have hs : (k + 1) * a = k * a + a := by ring
    rw [hs]
    exact returnsZero_add _ _ ih ha

theorem returnsZero_sub (a b : Nat) (hab : a ≤ b) (ha : returnsZero a)
    (hb : returnsZero b) : returnsZero (b - a) := by
  unfold returnsZero at *
  have he : b - a + a = b := by omega
  have h2 : lfsrStep^[b - a + a] 0 = 0 := by rw [he]; exact hb
  rw [Function.iterate_add_apply, ha] at h2
  exact h2

theorem returnsZero_mod (a b : Nat) (ha : returnsZero a) (hb : returnsZero b)
    (_hpos : 0 < a) : returnsZero (b % a) := by
  have hdm := Nat.div_add_mod' b a
  have hm : b % a = b - b / a * a := by omega
  rw [hm]
  exact returnsZero_sub _ _ (Nat.div_mul_le_self b a)
    (returnsZero_mul _ _ ha) hb

theorem returnsZero_gcd : ∀ a b, returnsZero a → returnsZero b →
    returnsZero (Nat.gcd a b) := by
  intro a
  induction a using Nat.strong_induction_on with
  | _ a ih =>
    intro b ha hb
    rcases Nat.eq_zero_or_pos a with h0 | hpos
    · subst h0
      rw [Nat.gcd_zero_left]
      exact hb
    · rw [Nat.gcd_rec]
      exact ih (b % a) (Nat.mod_lt b hpos) a (returnsZero_mod a b ha hb hpos) ha

theorem prime_dvd_436905 (q : Nat) (hq : q.Prime) (hd : q ∣ 436905) :
    q = 3 ∨ q = 5 ∨ q = 7 ∨ q = 19 ∨ q = 73 := by
  have h1 : (436905 : Nat) = 3 * (3 * (5 * (7 * (19 * 73)))) := by norm_num
  rw [h1] at hd
  rcases (Nat.Prime.dvd_mul hq).mp hd with h | h
  · exact Or.inl ((Nat.prime_dvd_prime_iff_eq hq (by norm_num)).mp h)
  rcases (Nat.Prime.dvd_mul hq).mp h with h | h
  · exact Or.inl ((Nat.prime_dvd_prime_iff_eq hq (by norm_num)).mp h)
  rcases (Nat.Prime.dvd_mul hq).mp h with h | h
  · exact Or.inr (Or.inl ((Nat.prime_dvd_prime_iff_eq hq (by norm_num)).mp h))
  rcases (Nat.Prime.dvd_mul hq).mp h with h | h
  · exact Or.inr (Or.inr (Or.inl
      ((Nat.prime_dvd_prime_iff_eq hq (by norm_num)).mp h)))
  rcases (Nat.Prime.dvd_mul hq).mp h with h | h
  · exact Or.inr (Or.inr (Or.inr (Or.inl
      ((Nat.prime_dvd_prime_iff_eq hq (by norm_num)).mp h))))
  · exact Or.inr (Or.inr (Or.inr (Or.inr
      ((Nat.prime_dvd_prime_iff_eq hq (by norm_num)).mp h))))

theorem orbit_min_period (k : Nat) (h1 : 0 < k) (h2 : k < 436905) :
    lfsrStep^[k] 0 ≠ 0 := by
  intro hk
  have hN : returnsZero 436905 := orbit_436905
  have hg : returnsZero (Nat.gcd k 436905) := returnsZero_gcd k 436905 hk hN
  have hgdvd : Nat.gcd k 436905 ∣ 436905 := Nat.gcd_dvd_right k 436905
  have hgpos : 0 < Nat.gcd k 436905 := Nat.gcd_pos_of_pos_left 436905 h1
  have hgle : Nat.gcd k 436905 ≤ k := Nat.le_of_dvd h1 (Nat.gcd_dvd_left k 436905)
  set g := Nat.gcd k 436905 with hgdef
  have hmul : g * (436905 / g) = 436905 := Nat.mul_div_cancel' hgdvd
  have hq2 : 436905 / g ≠ 1 := by
    intro h
    rw [h] at hmul
    omega
  obtain ⟨q, hqprime, hqdvd⟩ := Nat.exists_prime_and_dvd hq2
  have hqnat : Nat.Prime q := hqprime
  have hqN : q ∣ 436905 := dvd_trans hqdvd (Nat.div_dvd_of_dvd hgdvd)
  have hgNq : g ∣ 436905 / q := by
    obtain ⟨m, hm⟩ := hqdvd
    refine ⟨m, ?_⟩
    have hN2 : 436905 = q * (g * m) := by
      rw [← hmul, hm]
      ring
    rw [hN2, Nat.mul_div_cancel_left _ hqnat.pos]
  obtain ⟨t, ht⟩ := hgNq
  have hzNq : returnsZero (436905 / q) := by
    rw [ht, Nat.mul_comm]
    exact returnsZero_mul t g hg
  unfold returnsZero at hzNq
  rcases prime_dvd_436905 q hqnat hqN with h | h | h | h | h <;> subst h
  · rw [show (436905 : Nat) / 3 = 145635 by norm_num, orbit_145635] at hzNq
    norm_num at hzNq
  · rw [show (436905 : Nat) / 5 = 87381 by norm_num, orbit_87381] at hzNq
    norm_num at hzNq
  · rw [show (436905 : Nat) / 7 = 62415 by norm_num, orbit_62415] at hzNq
    norm_num at hzNq
  · rw [show (436905 : Nat) / 19 = 22995 by norm_num, orbit_22995] at hzNq
    norm_num at hzNq
  · rw [show (436905 : Nat) / 73 = 5985 by norm_num, orbit_5985] at hzNq
    norm_num at hzNq

/-- C1 counterexample: the orbit of 0 does not visit every non-trivial
32-bit state — the state `0x80000000` (which is not the fixed point) is
never reached, because every stepped value has bit 31 clear. -/
theorem C1_cex :
    ¬ (∀ t, t < 2 ^ 32 → t ≠ FIXED_STATE → ∃ n, lfsrStep^[n] 0 = t) := by
  intro h
  obtain ⟨n, hn⟩ := h (2 ^ 31) (by norm_num) (by decide)
  rcases n with _ | n
  · rw [Function.iterate_zero_apply] at hn
    norm_num at hn
  · have hlt := orbit_lt (n + 1)
    rw [hn] at hlt
    omega

/-- C1 (amended): the orbit of 0 under the regeneration step is purely
periodic with minimal period 436905 — it returns to 0 after exactly 436905
steps and at no earlier positive time — rather than visiting all 2^32 − 1
non-trivial states with period 2^32 − 1. -/
theorem C1_orbit_period (k : Nat) (h1 : 0 < k) (h2 : k < 436905) :
    lfsrStep^[436905] 0 = 0 ∧ lfsrStep^[k] 0 ≠ 0 :=
  ⟨orbit_436905, orbit_min_period k h1 h2⟩

/-- C1 witness: instance at k = 1. -/
theorem C1_orbit_period_witness :
    (0 : Nat) < 1 ∧ (1 : Nat) < 436905 ∧
    (lfsrStep^[436905] 0 = 0 ∧ lfsrStep^[1] 0 ≠ 0) :=
  ⟨by decide, by decide, C1_orbit_period 1 (by decide) (by decide)⟩

/-- C10 witness: a commit tick with generator low byte 20 writes a value
with low nibble 0xF. -/
theorem C10_committed_low_nibble_witness :
    (20 : Nat) < 256 ∧ (30 : Nat) < 32 ∧
    (((30 + 1) % 32 = 31 →
        (tick (MCU.mk 20 0 0 0 30 9)).ocr0a % 16 = 0xF ∧
          0xF ≤ (tick (MCU.mk 20 0 0 0 30 9)).ocr0a ∧
          (tick (MCU.mk 20 0 0 0 30 9)).ocr0a ≠ 0) ∧
      ((30 + 1) % 32 ≠ 31 →
        (tick (MCU.mk 20 0 0 0 30 9)).ocr0a = (MCU.mk 20 0 0 0 30 9).ocr0a)) :=
  ⟨by decide, by decide,
    C10_committed_low_nibble (MCU.mk 20 0 0 0 30 9) (by decide) (by decide)⟩
